import Mathlib

/-!
Verification of the musicopy library transcoding core.

The definitions below are a shallow embedding of the Rust source:
* `crates/musicopy/src/library/transcode.rs` (TranscodeQueue, TranscodeStatusCache,
  TranscodePool::run, TranscodeWorker::run, transcode)
* `crates/musicopy/src/library/hash.rs` (HashCache::get_cached_hash, get_file_hash)
* `crates/musicopy-transcode/src/lib.rs` (transcode, identical pipeline)

Machine integers are modelled as `Nat` with explicit `% 2^w` where the source
truncates; fallible code returns `Except`/`Option`; external library calls
(the opus encoder, the FFT resampler internals, xxh3, jpeg/base64 codecs) are
parameters of the definitions that use them.
-/

namespace Musicopy

/-! ## Transcode queue (transcode.rs lines 206-368)

`TranscodeQueue` holds a `PriorityQueue<PathBuf, u64>` and a policy.  We model
the priority queue as a list of (path, priority) pairs; `pop_if` pops an entry
of maximal priority when the predicate accepts it. -/

/-- Policy `TranscodePolicy` from transcode.rs: when to transcode files. -/
inductive TranscodePolicy
  | ifRequested
  | always
deriving DecidableEq, Repr

/-- A queue entry: source path and accumulated priority (`PriorityQueue<PathBuf, u64>`). -/
abbrev QEntry := String × Nat

/-- The admission predicate from the spec: `admission(IfRequested, p) = p > 0`,
`admission(Always, _) = true`.  This is the predicate `TranscodeQueue::wait` passes
to `pop_if` (transcode.rs lines 346-352). -/
def admission : TranscodePolicy → Nat → Bool
  | .ifRequested, p => decide (0 < p)
  | .always, _ => true

/-- The ready-count recomputation performed after each mutation
(transcode.rs lines 247-250 and the three identical copies). -/
def readyCountOf : TranscodePolicy → List QEntry → Nat
  | .ifRequested, q => (q.filter fun e => decide (0 < e.2)).length
  | .always, q => q.length

/-- The state of a `TranscodeQueue`: policy, priority queue contents, and the
shared ready counter atomic. -/
structure QueueState where
  policy : TranscodePolicy
  queue : List QEntry
  readyCounter : Nat
deriving Repr

/-- Constructor `TranscodeQueue::new` (transcode.rs lines 226-233). -/
def newQueue (p : TranscodePolicy) : QueueState :=
  { policy := p, queue := [], readyCounter := 0 }

/-- Operation `TranscodeQueue::set_policy` (transcode.rs lines 236-257): install the
policy, recount the queue, store into the ready counter. -/
def setPolicy (p : TranscodePolicy) (s : QueueState) : QueueState :=
  { policy := p, queue := s.queue, readyCounter := readyCountOf p s.queue }

/-- Helper `PriorityQueue::push_increase(item, 0)` as used by `extend`
(transcode.rs line 271): insert with priority 0 if absent; an existing
entry's priority is raised to `max(old, 0)`, i.e. left unchanged. -/
def pushIncrease (q : List QEntry) (item : String) : List QEntry :=
  if q.any fun e => e.1 = item then q else q ++ [(item, 0)]

/-- Operation `TranscodeQueue::extend` (transcode.rs lines 260-285). -/
def extendQueue (items : List String) (s : QueueState) : QueueState :=
  let q := items.foldl pushIncrease s.queue
  { policy := s.policy, queue := q, readyCounter := readyCountOf s.policy q }

/-- Operation `TranscodeQueue::prioritize` (transcode.rs lines 288-316): add 1 to the
priority of every resident entry whose path is in the set. -/
def prioritizeQueue (items : List String) (s : QueueState) : QueueState :=
  let q := s.queue.map fun e => if e.1 ∈ items then (e.1, e.2 + 1) else e
  { policy := s.policy, queue := q, readyCounter := readyCountOf s.policy q }

/-- Operation `TranscodeQueue::remove_missing` (transcode.rs lines 319-339): retain only
entries whose path is in the set. -/
def removeMissingQueue (items : List String) (s : QueueState) : QueueState :=
  let q := s.queue.filter fun e => decide (e.1 ∈ items)
  { policy := s.policy, queue := q, readyCounter := readyCountOf s.policy q }

/-- The heap's pop of a maximum-priority entry, as `PriorityQueue::pop_if`
reaches it.  Returns the popped entry and the remaining entries.  Ties are
broken in favour of earlier entries (the heap may break them arbitrarily; the
claims proved below hold for any choice). -/
def popMax : List QEntry → Option (QEntry × List QEntry)
  | [] => none
  | e :: rest =>
    match popMax rest with
    | none => some (e, [])
    | some (m, rest') =>
      if m.2 ≤ e.2 then some (e, rest) else some (m, e :: rest')

/-- One successful iteration of `TranscodeQueue::wait` (transcode.rs lines
342-367): `pop_if` pops the maximum-priority entry when the policy admits it,
and the ready counter is decremented.  `none` models the blocking case. -/
def waitPop (s : QueueState) : Option (QEntry × QueueState) :=
  match popMax s.queue with
  | none => none
  | some (m, q') =>
    if admission s.policy m.2 then
      some (m, { policy := s.policy, queue := q', readyCounter := s.readyCounter - 1 })
    else none

/-- The public mutating operations of `TranscodeQueue`. -/
inductive QueueOp
  | setPolicyOp (p : TranscodePolicy)
  | extendOp (items : List String)
  | prioritizeOp (items : List String)
  | removeMissingOp (items : List String)
  | popOp

/-- Apply one public mutating operation; `popOp` succeeds only when a wait
would pop. -/
def applyOp : QueueOp → QueueState → Option QueueState
  | .setPolicyOp p, s => some (setPolicy p s)
  | .extendOp items, s => some (extendQueue items s)
  | .prioritizeOp items, s => some (prioritizeQueue items s)
  | .removeMissingOp items, s => some (removeMissingQueue items s)
  | .popOp, s => (waitPop s).map (·.2)

/-- The C1 invariant: the shared ready counter equals the number of resident
entries admitted by the current policy. -/
def counterInvariant (s : QueueState) : Prop :=
  s.readyCounter = (s.queue.filter fun e => admission s.policy e.2).length

/-- The code's recount agrees with the admission-predicate count. -/
theorem readyCountOf_eq_filter (p : TranscodePolicy) (q : List QEntry) :
    readyCountOf p q = (q.filter fun e => admission p e.2).length := by
  cases p with
  | ifRequested => rfl
  | always =>
    simp [readyCountOf, admission]

theorem popMax_eq_none_iff (q : List QEntry) : popMax q = none ↔ q = [] := by
  cases q with
  | nil => simp [popMax]
  | cons e rest =>
    simp only [popMax]
    cases h : popMax rest with
    | none => simp
    | some p =>
      obtain ⟨m, rest'⟩ := p
      by_cases hle : m.2 ≤ e.2 <;> simp [hle]

theorem popMax_perm (q : List QEntry) (m : QEntry) (q' : List QEntry)
    (h : popMax q = some (m, q')) : q.Perm (m :: q') := by
  induction q generalizing m q' with
  | nil => simp [popMax] at h
  | cons e rest ih =>
    simp only [popMax] at h
    cases hr : popMax rest with
    | none =>
      rw [hr] at h
      have : rest = [] := (popMax_eq_none_iff rest).mp hr
      subst this
      simp at h
      obtain ⟨he, hq⟩ := h
      subst he; subst hq
      exact List.Perm.refl _
    | some p =>
      obtain ⟨m0, rest0⟩ := p
      rw [hr] at h
      have ihp := ih m0 rest0 hr
      by_cases hle : m0.2 ≤ e.2
      · simp [hle] at h
        obtain ⟨he, hq⟩ := h
        subst he; subst hq
        exact List.Perm.refl _
      · simp [hle] at h
        obtain ⟨he, hq⟩ := h
        subst he; subst hq
        exact (List.Perm.cons e ihp).trans (List.Perm.swap m0 e rest0)

theorem popMax_le (q : List QEntry) (m : QEntry) (q' : List QEntry)
    (h : popMax q = some (m, q')) : ∀ x ∈ q, x.2 ≤ m.2 := by
  induction q generalizing m q' with
  | nil => simp [popMax] at h
  | cons e rest ih =>
    simp only [popMax] at h
    cases hr : popMax rest with
    | none =>
      rw [hr] at h
      have : rest = [] := (popMax_eq_none_iff rest).mp hr
      subst this
      simp at h
      obtain ⟨he, _⟩ := h
      subst he
      intro x hx
      simp at hx
      subst hx
      exact Nat.le_refl _
    | some p =>
      obtain ⟨m0, rest0⟩ := p
      rw [hr] at h
      have ihp := ih m0 rest0 hr
      by_cases hle : m0.2 ≤ e.2
      · simp [hle] at h
        obtain ⟨he, _⟩ := h
        subst he
        intro x hx
        rcases List.mem_cons.mp hx with hx | hx
        · subst hx; exact Nat.le_refl _
        · exact Nat.le_trans (ihp x hx) hle
      · simp [hle] at h
        obtain ⟨he, _⟩ := h
        subst he
        intro x hx
        rcases List.mem_cons.mp hx with hx | hx
        · subst hx; exact Nat.le_of_lt (Nat.lt_of_not_le hle)
        · exact ihp x hx

theorem popMax_mem (q : List QEntry) (m : QEntry) (q' : List QEntry)
    (h : popMax q = some (m, q')) : m ∈ q :=
  (popMax_perm q m q' h).mem_iff.mpr (List.mem_cons_self m q')

/-- C1. For every policy and every queue state satisfying the counter
invariant, each public mutating queue operation (set_policy, extend,
prioritize, remove_missing, or a successful wait/pop) re-establishes the
invariant: the shared ready counter equals the number of resident entries `e`
with `admission(policy, e.priority)`.  The initial queue satisfies the invariant,
so it holds after every operation of every reachable execution. -/
theorem queue_ready_counter_invariant :
    (∀ p, counterInvariant (newQueue p)) ∧
    ∀ (op : QueueOp) (s s' : QueueState),
      counterInvariant s → applyOp op s = some s' → counterInvariant s' := by
  constructor
  · intro p
    simp [counterInvariant, newQueue]
  · intro op s s' hinv happ
    cases op with
    | setPolicyOp p =>
      simp [applyOp] at happ
      subst happ
      simpa [counterInvariant, setPolicy] using readyCountOf_eq_filter p s.queue
    | extendOp items =>
      simp [applyOp] at happ
      subst happ
      simpa [counterInvariant, extendQueue] using
        readyCountOf_eq_filter s.policy (items.foldl pushIncrease s.queue)
    | prioritizeOp items =>
      simp [applyOp] at happ
      subst happ
      simpa [counterInvariant, prioritizeQueue] using
        readyCountOf_eq_filter s.policy
          (s.queue.map fun e => if e.1 ∈ items then (e.1, e.2 + 1) else e)
    | removeMissingOp items =>
      simp [applyOp] at happ
      subst happ
      simpa [counterInvariant, removeMissingQueue] using
        readyCountOf_eq_filter s.policy (s.queue.filter fun e => decide (e.1 ∈ items))
    | popOp =>
      simp only [applyOp, Option.map_eq_some'] at happ
      obtain ⟨⟨m, s1⟩, hwait, hs'⟩ := happ
      subst hs'
      unfold waitPop at hwait
      cases hpop : popMax s.queue with
      | none => rw [hpop] at hwait; simp at hwait
      | some p =>
        obtain ⟨m0, q'⟩ := p
        rw [hpop] at hwait
        by_cases hadm : admission s.policy m0.2 = true
        · simp [hadm] at hwait
          obtain ⟨hm, hs1⟩ := hwait
          subst hs1
          have hperm := popMax_perm s.queue m0 q' hpop
          have hfil := hperm.filter (fun e => admission s.policy e.2)
          have hlen := hfil.length_eq
          simp [List.filter, hadm] at hlen
          simp only [counterInvariant] at hinv ⊢
          simp only [hinv, hlen]
          omega
        · simp [hadm] at hwait

/-- Witness for C1 at a concrete state: a pop under `Always` from a
one-element queue with a correct counter yields a correct counter. -/
theorem queue_ready_counter_invariant_witness :
    counterInvariant { policy := .always, queue := [("a", 0)], readyCounter := 1 } ∧
    applyOp .popOp { policy := .always, queue := [("a", 0)], readyCounter := 1 } =
      some { policy := .always, queue := [], readyCounter := 0 } ∧
    counterInvariant { policy := TranscodePolicy.always, queue := [], readyCounter := 0 } := by
  refine ⟨by rfl, by rfl, ?_⟩
  exact queue_ready_counter_invariant.2 .popOp
    { policy := .always, queue := [("a", 0)], readyCounter := 1 }
    { policy := .always, queue := [], readyCounter := 0 }
    (by rfl) (by rfl)

/-- C2. Whenever `wait` pops, the returned entry was resident, of maximal
priority among all resident entries, admitted by the policy at the moment of
pop, and is removed from the queue (the prior queue is a permutation of the
entry consed onto the remaining queue).  Under `IfRequested`, the popped
priority is strictly positive. -/
theorem wait_pops_max_admitted (s : QueueState) (m : QEntry) (s' : QueueState)
    (h : waitPop s = some (m, s')) :
    m ∈ s.queue ∧
    (∀ x ∈ s.queue, x.2 ≤ m.2) ∧
    admission s.policy m.2 = true ∧
    s.queue.Perm (m :: s'.queue) ∧
    (s.policy = .ifRequested → 0 < m.2) := by
  unfold waitPop at h
  cases hpop : popMax s.queue with
  | none => rw [hpop] at h; simp at h
  | some p =>
    obtain ⟨m0, q'⟩ := p
    rw [hpop] at h
    by_cases hadm : admission s.policy m0.2 = true
    · simp [hadm] at h
      obtain ⟨hm, hs'⟩ := h
      subst hm
      refine ⟨popMax_mem s.queue m0 q' hpop, popMax_le s.queue m0 q' hpop, hadm, ?_, ?_⟩
      · rw [← hs']
        exact popMax_perm s.queue m0 q' hpop
      · intro hpol
        rw [hpol] at hadm
        simpa [admission] using hadm
    · simp [hadm] at h

/-- Witness for C2: popping from a concrete two-entry queue under
`IfRequested` returns the strictly-positive maximal entry. -/
theorem wait_pops_max_admitted_witness :
    (("b", 2) : QEntry) ∈
      ({ policy := .ifRequested, queue := [("a", 1), ("b", 2)], readyCounter := 2 } :
        QueueState).queue ∧
    (0 : Nat) < 2 := by
  have h := wait_pops_max_admitted
    { policy := .ifRequested, queue := [("a", 1), ("b", 2)], readyCounter := 2 }
    ("b", 2)
    { policy := .ifRequested, queue := [("a", 1)], readyCounter := 1 }
    (by rfl)
  exact ⟨h.1, h.2.2.2.2 rfl⟩

/-! ## Transcode status cache (transcode.rs lines 28-204)

`TranscodeStatusCache` is a `DashMap<(String, [u8; 16]), TranscodeStatus>` plus
two atomic counters.  We model the map as an association list (keys are unique
in every reachable state; the counter proofs below do not even need that) and
the `[u8; 16]` hash as a list of bytes. -/

/-- A content-hash key: `(String, [u8; 16])`. -/
abbrev CKey := String × List Nat

/-- Status `TranscodeStatus` from transcode.rs lines 33-42; the `anyhow::Error` of
`Failed` is modelled by its message string. -/
inductive TStatus
  | ready (transcodePath : String) (fileSize : Nat)
  | failed (error : String)
deriving DecidableEq, Repr

/-- Whether a status is the `Ready` variant. -/
def TStatus.isReady : TStatus → Bool
  | .ready _ _ => true
  | .failed _ => false

/-- State of a `TranscodeStatusCache`: the map plus the two counters. -/
structure StatusCache where
  cache : List (CKey × TStatus)
  readyCounter : Nat
  failedCounter : Nat
deriving Repr

/-- Constructor `TranscodeStatusCache::new` (transcode.rs lines 133-140). -/
def emptyStatusCache : StatusCache :=
  { cache := [], readyCounter := 0, failedCounter := 0 }

/-- Lookup by owned key, as `DashMap::insert` finds the slot to replace. -/
def assocGet (k : CKey) : List (CKey × TStatus) → Option TStatus
  | [] => none
  | e :: rest => if e.1 = k then some e.2 else assocGet k rest

/-- Map insertion replacing the previous value for the key, as
`DashMap::insert` does. -/
def assocInsert (k : CKey) (v : TStatus) : List (CKey × TStatus) → List (CKey × TStatus)
  | [] => [(k, v)]
  | e :: rest => if e.1 = k then (k, v) :: rest else e :: assocInsert k v rest

/-- Operation `TranscodeStatusCache::insert` (transcode.rs lines 150-171): first add one
to the destination variant's counter, then insert (recording the previous
value), then subtract one from the previous value's variant counter. -/
def statusInsert (k : CKey) (v : TStatus) (c : StatusCache) : StatusCache :=
  let ready1 := c.readyCounter + (if v.isReady then 1 else 0)
  let failed1 := c.failedCounter + (if v.isReady then 0 else 1)
  let cache' := assocInsert k v c.cache
  match assocGet k c.cache with
  | some w =>
    { cache := cache',
      readyCounter := ready1 - (if w.isReady then 1 else 0),
      failedCounter := failed1 - (if w.isReady then 0 else 1) }
  | none =>
    { cache := cache', readyCounter := ready1, failedCounter := failed1 }

/-- Operation `TranscodeStatusCache::retain` (transcode.rs lines 174-189): drop entries
failing the predicate, subtracting one from the matching counter for every
dropped entry. -/
def statusRetain (f : CKey → TStatus → Bool) (c : StatusCache) : StatusCache :=
  let dropped := c.cache.filter fun e => !(f e.1 e.2)
  { cache := c.cache.filter fun e => f e.1 e.2,
    readyCounter := c.readyCounter - (dropped.filter fun e => e.2.isReady).length,
    failedCounter := c.failedCounter - (dropped.filter fun e => !e.2.isReady).length }

/-- Number of `Ready` entries in the map. -/
def countReady (l : List (CKey × TStatus)) : Nat :=
  (l.filter fun e => e.2.isReady).length

/-- Number of `Failed` entries in the map. -/
def countFailed (l : List (CKey × TStatus)) : Nat :=
  (l.filter fun e => !e.2.isReady).length

/-- The operations C3 ranges over. -/
inductive CacheOp
  | ins (k : CKey) (v : TStatus)
  | ret (f : CKey → TStatus → Bool)

/-- Apply one status-cache operation. -/
def applyCacheOp (c : StatusCache) : CacheOp → StatusCache
  | .ins k v => statusInsert k v c
  | .ret f => statusRetain f c

/-- Run a sequence of status-cache operations from the empty cache. -/
def runCacheOps (ops : List CacheOp) : StatusCache :=
  ops.foldl applyCacheOp emptyStatusCache

theorem assocInsert_of_get_none (k : CKey) (v : TStatus) (l : List (CKey × TStatus))
    (h : assocGet k l = none) : assocInsert k v l = l ++ [(k, v)] := by
  induction l with
  | nil => rfl
  | cons e rest ih =>
    simp only [assocGet] at h
    by_cases he : e.1 = k
    · simp [he] at h
    · simp only [assocInsert, he, if_false]
      rw [ih (by simpa [he] using h)]
      simp

theorem countReady_assocInsert_some (k : CKey) (v w : TStatus) (l : List (CKey × TStatus))
    (h : assocGet k l = some w) :
    countReady (assocInsert k v l) + (if w.isReady then 1 else 0) =
      countReady l + (if v.isReady then 1 else 0) := by
  induction l with
  | nil => simp [assocGet] at h
  | cons e rest ih =>
    simp only [assocGet] at h
    by_cases he : e.1 = k
    · simp only [he, if_true] at h
      have hw : e.2 = w := by simpa using h
      subst hw
      simp only [assocInsert, he, if_true]
      cases hv : v.isReady <;> cases he2 : e.2.isReady <;>
        simp [countReady, List.filter, hv, he2]
    · simp only [he, if_false] at h
      have := ih h
      simp only [assocInsert, he, if_false, countReady, List.filter]
      cases he2 : e.2.isReady <;> simp [countReady, he2] at this ⊢ <;> omega

theorem countFailed_assocInsert_some (k : CKey) (v w : TStatus) (l : List (CKey × TStatus))
    (h : assocGet k l = some w) :
    countFailed (assocInsert k v l) + (if w.isReady then 0 else 1) =
      countFailed l + (if v.isReady then 0 else 1) := by
  induction l with
  | nil => simp [assocGet] at h
  | cons e rest ih =>
    simp only [assocGet] at h
    by_cases he : e.1 = k
    · simp only [he, if_true] at h
      have hw : e.2 = w := by simpa using h
      subst hw
      simp only [assocInsert, he, if_true]
      cases hv : v.isReady <;> cases he2 : e.2.isReady <;>
        simp [countFailed, List.filter, hv, he2]
    · simp only [he, if_false] at h
      have := ih h
      simp only [assocInsert, he, if_false, countFailed, List.filter]
      cases he2 : e.2.isReady <;> simp [countFailed, he2] at this ⊢ <;> omega

theorem countReady_filter_split (f : CKey × TStatus → Bool) (l : List (CKey × TStatus)) :
    countReady (l.filter f) + countReady (l.filter fun e => !(f e)) = countReady l := by
  induction l with
  | nil => rfl
  | cons e rest ih =>
    cases hf : f e <;> cases he : e.2.isReady <;>
      simp [countReady, List.filter, hf, he] at ih ⊢ <;> omega

theorem countFailed_filter_split (f : CKey × TStatus → Bool) (l : List (CKey × TStatus)) :
    countFailed (l.filter f) + countFailed (l.filter fun e => !(f e)) = countFailed l := by
  induction l with
  | nil => rfl
  | cons e rest ih =>
    cases hf : f e <;> cases he : e.2.isReady <;>
      simp [countFailed, List.filter, hf, he] at ih ⊢ <;> omega

theorem countReady_add_countFailed (l : List (CKey × TStatus)) :
    countReady l + countFailed l = l.length := by
  induction l with
  | nil => rfl
  | cons e rest ih =>
    cases he : e.2.isReady <;> simp [countReady, countFailed, List.filter, he] at ih ⊢ <;> omega

/-- The C3 counter invariant, preserved by every operation. -/
theorem statusCache_step_invariant (c : StatusCache) (op : CacheOp)
    (hr : c.readyCounter = countReady c.cache)
    (hf : c.failedCounter = countFailed c.cache) :
    (applyCacheOp c op).readyCounter = countReady (applyCacheOp c op).cache ∧
      (applyCacheOp c op).failedCounter = countFailed (applyCacheOp c op).cache := by
  cases op with
  | ins k v =>
    simp only [applyCacheOp, statusInsert]
    cases hprev : assocGet k c.cache with
    | none =>
      have hins := assocInsert_of_get_none k v c.cache hprev
      constructor
      · simp [hins, countReady, List.filter_append, hr]
        cases hv : v.isReady <;> simp [hv]
      · simp [hins, countFailed, List.filter_append, hf]
        cases hv : v.isReady <;> simp [hv]
    | some w =>
      have hcr := countReady_assocInsert_some k v w c.cache hprev
      have hcf := countFailed_assocInsert_some k v w c.cache hprev
      constructor
      · simp only [hr]
        omega
      · simp only [hf]
        omega
  | ret f =>
    simp only [applyCacheOp, statusRetain]
    have hcr := countReady_filter_split (fun e => f e.1 e.2) c.cache
    have hcf := countFailed_filter_split (fun e => f e.1 e.2) c.cache
    constructor
    · simp only [hr, countReady] at *
      omega
    · simp only [hf, countFailed] at *
      omega

/-- C3. For every sequence of StatusCache operations (insert and retain,
starting from the empty cache), the ready counter equals the number of `Ready`
entries, the failed counter equals the number of `Failed` entries (both are
`Nat`s, hence nonnegative), and their sum equals the total number of entries
in the map. -/
theorem statusCache_counters_exact (ops : List CacheOp) :
    (runCacheOps ops).readyCounter = countReady (runCacheOps ops).cache ∧
    (runCacheOps ops).failedCounter = countFailed (runCacheOps ops).cache ∧
    (runCacheOps ops).readyCounter + (runCacheOps ops).failedCounter =
      (runCacheOps ops).cache.length := by
  have main : ∀ (l : List CacheOp) (c : StatusCache),
      c.readyCounter = countReady c.cache → c.failedCounter = countFailed c.cache →
      (l.foldl applyCacheOp c).readyCounter = countReady (l.foldl applyCacheOp c).cache ∧
        (l.foldl applyCacheOp c).failedCounter = countFailed (l.foldl applyCacheOp c).cache := by
    intro l
    induction l with
    | nil => intro c hr hf; exact ⟨hr, hf⟩
    | cons op rest ih =>
      intro c hr hf
      have step := statusCache_step_invariant c op hr hf
      exact ih (applyCacheOp c op) step.1 step.2
  have h := main ops emptyStatusCache rfl rfl
  simp only [runCacheOps]
  refine ⟨h.1, h.2, ?_⟩
  rw [h.1, h.2]
  exact countReady_add_countFailed _

/-! ## Borrowed-key lookup (transcode.rs lines 44-147)

`TranscodeStatusCache::get` looks up by `&(hash_kind: &str, hash)` cast to
`&dyn HashKey`; equality of `dyn HashKey` values compares the `hash_kind` and
`hash` projections (transcode.rs lines 69-73). -/

/-- The projections exposed by the `HashKey` trait. -/
structure HashKeyView where
  hashKind : String
  hashBytes : List Nat
deriving Repr

/-- Equality `PartialEq for dyn HashKey` (transcode.rs lines 69-73): compare the
`hash_kind` and `hash` projections. -/
def hashKeyEq (a b : HashKeyView) : Bool :=
  a.hashKind == b.hashKind && a.hashBytes == b.hashBytes

/-- The `HashKey` view of an owned `(String, [u8; 16])` key
(transcode.rs lines 77-85). -/
def ownedView (k : CKey) : HashKeyView :=
  { hashKind := k.1, hashBytes := k.2 }

/-- Operation `TranscodeStatusCache::get` (transcode.rs lines 143-147): look up by the
borrowed `(&str, [u8; 16])` view using `dyn HashKey` equality. -/
def statusGet (kind : String) (h : List Nat) (c : StatusCache) : Option TStatus :=
  (c.cache.find? fun e =>
      hashKeyEq { hashKind := kind, hashBytes := h } (ownedView e.1)).map (·.2)

theorem hashKeyEq_borrowed_owned (kind : String) (h : List Nat) (k : CKey) :
    hashKeyEq { hashKind := kind, hashBytes := h } (ownedView k) = true ↔ (kind, h) = k := by
  cases k with
  | mk k1 k2 =>
    simp [hashKeyEq, ownedView, Prod.ext_iff]

/-- C10. For every kind string, hash bytes, status and prior cache state,
immediately after `insert(kind, h, s)` the borrowed lookup `get(&kind, h)`
returns `s`: the borrowed key's equality (via the `dyn HashKey` projections)
agrees with the owned key used at insertion. -/
theorem statusCache_insert_get_roundtrip (kind : String) (h : List Nat) (v : TStatus)
    (c : StatusCache) :
    statusGet kind h (statusInsert (kind, h) v c) = some v := by
  have key : ∀ l : List (CKey × TStatus),
      (assocInsert (kind, h) v l).find? (fun e =>
        hashKeyEq { hashKind := kind, hashBytes := h } (ownedView e.1)) = some ((kind, h), v) := by
    intro l
    induction l with
    | nil =>
      simp [assocInsert, List.find?, (hashKeyEq_borrowed_owned kind h (kind, h)).mpr rfl]
    | cons e rest ih =>
      by_cases he : e.1 = (kind, h)
      · simp [assocInsert, he, List.find?,
          (hashKeyEq_borrowed_owned kind h (kind, h)).mpr rfl]
      · have hne : hashKeyEq { hashKind := kind, hashBytes := h } (ownedView e.1) = false := by
          cases hb : hashKeyEq { hashKind := kind, hashBytes := h } (ownedView e.1) with
          | false => rfl
          | true =>
            exact absurd ((hashKeyEq_borrowed_owned kind h e.1).mp hb).symm he
        simp [assocInsert, he, List.find?, hne, ih]
  simp only [statusGet, statusInsert]
  cases hprev : assocGet (kind, h) c.cache <;> simp [hprev, key c.cache]

/-! ## Cached-hash admission filter (hash.rs lines 61-83, transcode.rs lines 591-665)

`HashCache::get_cached_hash` reads the file's `(size, mtime)` metadata and the
persisted `HashEntry` row and returns the cached hash only when they match.
The filesystem metadata and the database row are inputs of the model. -/

/-- Current `(size, mtime)` of a file, as `CacheKey::read_metadata` returns it
(hash.rs lines 25-39); `none` models a metadata read error. -/
structure FileMeta where
  size : Nat
  mtime : Nat
deriving DecidableEq, Repr

/-- A persisted `FileHash` row (the `HashEntry` of the spec). -/
structure DbHashEntry where
  lastFileSize : Nat
  lastModifiedAt : Nat
  hashKind : String
  hash : List Nat
deriving DecidableEq, Repr

/-- Operation `HashCache::get_cached_hash` (hash.rs lines 61-83): error when metadata
cannot be read; the cached hash when the stored `(size, mtime)` matches the
current pair; otherwise `none` without computing. -/
def getCachedHash (meta : String → Option FileMeta) (db : String → Option DbHashEntry)
    (p : String) : Except String (Option (String × List Nat)) :=
  match meta p with
  | none => .error "failed to get file metadata"
  | some m =>
    match db p with
    | some e =>
      if m.size = e.lastFileSize ∧ m.mtime = e.lastModifiedAt then
        .ok (some (e.hashKind, e.hash))
      else
        .ok none
    | none => .ok none

/-- The per-item predicate of `items.retain(...)` in `TranscodePool::run`'s
`Load` branch (transcode.rs lines 596-630): keep (enqueue) when the cached
hash is unavailable or errored, or when no status is cached for the hash;
drop whenever any status (Ready or Failed) is present. -/
def loadKeep (meta : String → Option FileMeta) (db : String → Option DbHashEntry)
    (sc : StatusCache) (item : String) : Bool :=
  match getCachedHash meta db item with
  | .error _ => true
  | .ok none => true
  | .ok (some (kind, h)) =>
    match statusGet kind h sc with
    | some _ => false
    | none => true

/-- The `Load` command handling (transcode.rs lines 591-665): prune the queue
to the loaded set, filter the set by `loadKeep`, and extend the queue with the
survivors when any remain. -/
def processLoad (meta : String → Option FileMeta) (db : String → Option DbHashEntry)
    (sc : StatusCache) (items : List String) (s : QueueState) : QueueState :=
  let s1 := removeMissingQueue items s
  let kept := items.filter (loadKeep meta db sc)
  if kept.isEmpty then s1 else extendQueue kept s1

/-- The short-circuit check in `TranscodeWorker::run` (transcode.rs lines
897-905): skip the popped job only when the cached status is `Ready`. -/
def workerShortCircuits (sc : StatusCache) (kind : String) (h : List Nat) : Bool :=
  match statusGet kind h sc with
  | some (.ready _ _) => true
  | _ => false

/-- C8. For every path whose cached-without-compute hash is valid and maps to
a `Ready` status, processing `Load({p})` does not enqueue `p`: the admission
filter drops it, and every entry of the resulting queue was already resident
before the command. -/
theorem load_skips_ready (meta : String → Option FileMeta) (db : String → Option DbHashEntry)
    (sc : StatusCache) (s : QueueState) (p kind pth : String) (h : List Nat) (sz : Nat)
    (hhash : getCachedHash meta db p = .ok (some (kind, h)))
    (hstatus : statusGet kind h sc = some (.ready pth sz)) :
    loadKeep meta db sc p = false ∧
    ∀ e ∈ (processLoad meta db sc [p] s).queue, e ∈ s.queue := by
  have hkeep : loadKeep meta db sc p = false := by
    simp [loadKeep, hhash, hstatus]
  refine ⟨hkeep, ?_⟩
  intro e he
  have hkept : ([p].filter (loadKeep meta db sc)) = [] := by
    simp [List.filter, hkeep]
  simp only [processLoad, hkept, List.isEmpty_nil, if_true] at he
  simp only [removeMissingQueue] at he
  exact List.mem_of_mem_filter he

/-- Witness for C8 at a concrete state: a valid cached hash with a `Ready`
status keeps the file out of the queue. -/
theorem load_skips_ready_witness :
    loadKeep (fun _ => some { size := 10, mtime := 5 })
      (fun _ => some { lastFileSize := 10, lastModifiedAt := 5, hashKind := "xxh3", hash := [7] })
      { cache := [(("xxh3", [7]), .ready "out.ogg" 3)], readyCounter := 1, failedCounter := 0 }
      "a.mp3" = false := by
  exact (load_skips_ready
    (fun _ => some { size := 10, mtime := 5 })
    (fun _ => some { lastFileSize := 10, lastModifiedAt := 5, hashKind := "xxh3", hash := [7] })
    { cache := [(("xxh3", [7]), .ready "out.ogg" 3)], readyCounter := 1, failedCounter := 0 }
    (newQueue .always) "a.mp3" "xxh3" "out.ogg" [7] 3 (by rfl) (by rfl)).1

/-- C9.  The `Load` filter drops a path whose valid cached hash maps to a
`Failed` status just as it drops a `Ready` one — `Load` never re-enqueues a
failed file while its entry persists — even though the worker's own check
short-circuits only on `Ready` and would re-run the transcoder on a `Failed`
status. -/
theorem load_skips_failed_but_worker_would_retry (meta : String → Option FileMeta)
    (db : String → Option DbHashEntry) (sc : StatusCache) (s : QueueState)
    (p kind err : String) (h : List Nat)
    (hhash : getCachedHash meta db p = .ok (some (kind, h)))
    (hstatus : statusGet kind h sc = some (.failed err)) :
    loadKeep meta db sc p = false ∧
    (∀ e ∈ (processLoad meta db sc [p] s).queue, e ∈ s.queue) ∧
    workerShortCircuits sc kind h = false := by
  have hkeep : loadKeep meta db sc p = false := by
    simp [loadKeep, hhash, hstatus]
  refine ⟨hkeep, ?_, ?_⟩
  · intro e he
    have hkept : ([p].filter (loadKeep meta db sc)) = [] := by
      simp [List.filter, hkeep]
    simp only [processLoad, hkept, List.isEmpty_nil, if_true] at he
    simp only [removeMissingQueue] at he
    exact List.mem_of_mem_filter he
  · simp [workerShortCircuits, hstatus]

/-- Witness for C9 at a concrete state: a `Failed` entry keeps the file out of
the queue while the worker check would not short-circuit on it. -/
theorem load_skips_failed_but_worker_would_retry_witness :
    loadKeep (fun _ => some { size := 10, mtime := 5 })
      (fun _ => some { lastFileSize := 10, lastModifiedAt := 5, hashKind := "xxh3", hash := [7] })
      { cache := [(("xxh3", [7]), .failed "boom")], readyCounter := 0, failedCounter := 1 }
      "a.mp3" = false ∧
    workerShortCircuits
      { cache := [(("xxh3", [7]), .failed "boom")], readyCounter := 0, failedCounter := 1 }
      "xxh3" [7] = false := by
  have h := load_skips_failed_but_worker_would_retry
    (fun _ => some { size := 10, mtime := 5 })
    (fun _ => some { lastFileSize := 10, lastModifiedAt := 5, hashKind := "xxh3", hash := [7] })
    { cache := [(("xxh3", [7]), .failed "boom")], readyCounter := 0, failedCounter := 1 }
    (newQueue .always) "a.mp3" "xxh3" "boom" [7] (by rfl) (by rfl)
  exact ⟨h.1, h.2.2⟩

/-! ## File hashing (hash.rs lines 282-348)

`get_file_hash` either returns the container's embedded MD5 verification
check verbatim, or streams the default audio track's compressed packet
payloads through `XxHash3_64` and widens the 64-bit result to 16 bytes via
`(hash as u128).to_be_bytes()`.  The xxh3 function itself lives in the
`twox_hash` crate and is a parameter; its streaming `write` accumulates bytes
and `finish` hashes everything written. -/

/-- The probed shape of an input file: the default audio track's id, its
optional `VerificationCheck::Md5` bytes, and the container's packets as
(track id, payload bytes) pairs. -/
structure HashProbe where
  trackId : Nat
  verificationMd5 : Option (List Nat)
  packets : List (Nat × List Nat)
deriving DecidableEq, Repr

/-- The bytes fed to the hasher by the packet loop (hash.rs lines 320-341):
every packet of the default track is written; packets of other tracks are
skipped. -/
def hashedBytes (trackId : Nat) (packets : List (Nat × List Nat)) : List Nat :=
  packets.foldl (fun acc p => if p.1 = trackId then acc ++ p.2 else acc) []

/-- Big-endian bytes of a `u64`. -/
def be64Bytes (h : Nat) : List Nat :=
  [h / 2 ^ 56 % 256, h / 2 ^ 48 % 256, h / 2 ^ 40 % 256, h / 2 ^ 32 % 256,
   h / 2 ^ 24 % 256, h / 2 ^ 16 % 256, h / 2 ^ 8 % 256, h % 256]

/-- Big-endian bytes of a `u128`, as `u128::to_be_bytes` produces them. -/
def be128Bytes (h : Nat) : List Nat :=
  [h / 2 ^ 120 % 256, h / 2 ^ 112 % 256, h / 2 ^ 104 % 256, h / 2 ^ 96 % 256,
   h / 2 ^ 88 % 256, h / 2 ^ 80 % 256, h / 2 ^ 72 % 256, h / 2 ^ 64 % 256,
   h / 2 ^ 56 % 256, h / 2 ^ 48 % 256, h / 2 ^ 40 % 256, h / 2 ^ 32 % 256,
   h / 2 ^ 24 % 256, h / 2 ^ 16 % 256, h / 2 ^ 8 % 256, h % 256]

/-- Function `get_file_hash` (hash.rs lines 287-348).  `xxh3` is the seeded
`XxHash3_64` of the `twox_hash` crate; its `u64` result is modelled by
`% 2 ^ 64`. -/
def getFileHash (xxh3 : List Nat → Nat) (f : HashProbe) : String × List Nat :=
  match f.verificationMd5 with
  | some md5 => ("md5", md5)
  | none => ("xxh3", be128Bytes (xxh3 (hashedBytes f.trackId f.packets) % 2 ^ 64))

theorem hashedBytes_eq_flatten (trackId : Nat) (packets : List (Nat × List Nat)) :
    hashedBytes trackId packets =
      ((packets.filter fun p => p.1 = trackId).map Prod.snd).flatten := by
  have gen : ∀ (l : List (Nat × List Nat)) (acc : List Nat),
      l.foldl (fun acc p => if p.1 = trackId then acc ++ p.2 else acc) acc =
        acc ++ ((l.filter fun p => p.1 = trackId).map Prod.snd).flatten := by
    intro l
    induction l with
    | nil => intro acc; simp
    | cons p rest ih =>
      intro acc
      by_cases hp : p.1 = trackId
      · simp [List.filter, hp, ih]
      · simp [List.filter, hp, ih]
  simpa [hashedBytes] using gen packets []

theorem be128Bytes_eq_zeros_append_be64 (h : Nat) (hlt : h < 2 ^ 64) :
    be128Bytes h = List.replicate 8 0 ++ be64Bytes h := by
  simp only [be128Bytes, be64Bytes, List.replicate, List.cons_append, List.nil_append,
    List.cons.injEq, and_true]
  norm_num
  omega

/-- C7. For every input file: when the default audio track advertises an MD5
verification check, `get_file_hash` returns kind `"md5"` with those bytes
verbatim; otherwise it returns kind `"xxh3"` with the 64-bit xxh3 hash of the
concatenated payloads of the default track's packets (other tracks' packets
skipped), widened to 16 bytes by big-endian zero-extension — 8 zero bytes
followed by the 8 big-endian hash bytes. -/
theorem getFileHash_spec (xxh3 : List Nat → Nat) (f : HashProbe) :
    (∀ md5, f.verificationMd5 = some md5 → getFileHash xxh3 f = ("md5", md5)) ∧
    (f.verificationMd5 = none →
      getFileHash xxh3 f =
        ("xxh3",
          List.replicate 8 0 ++
            be64Bytes
              (xxh3 (((f.packets.filter fun p => p.1 = f.trackId).map Prod.snd).flatten) %
                2 ^ 64))) := by
  constructor
  · intro md5 hm
    simp [getFileHash, hm]
  · intro hn
    have hmod :
        xxh3 (((f.packets.filter fun p => p.1 = f.trackId).map Prod.snd).flatten) % 2 ^ 64 <
          2 ^ 64 :=
      Nat.mod_lt _ (by norm_num)
    simp only [getFileHash, hn, hashedBytes_eq_flatten]
    rw [be128Bytes_eq_zeros_append_be64 _ hmod]

/-- Witness for C7: both branches at concrete files, with xxh3 instantiated
at a concrete function. -/
theorem getFileHash_spec_witness :
    getFileHash (fun l => l.length)
        { trackId := 0, verificationMd5 := some [1, 2], packets := [] } = ("md5", [1, 2]) ∧
    getFileHash (fun l => l.length)
        { trackId := 0, verificationMd5 := none, packets := [(0, [9]), (1, [8])] } =
      ("xxh3", List.replicate 8 0 ++ be64Bytes 1) := by
  constructor
  · exact (getFileHash_spec (fun l => l.length)
      { trackId := 0, verificationMd5 := some [1, 2], packets := [] }).1 [1, 2] rfl
  · have h := (getFileHash_spec (fun l => l.length)
      { trackId := 0, verificationMd5 := none, packets := [(0, [9]), (1, [8])] }).2 rfl
    simpa using h

/-! ## Transcoder pipeline (transcode.rs lines 1019-1478; musicopy-transcode lib.rs)

The decoding, resampling FFT kernel, opus encoder, jpeg codec and base64 are
external crates; they appear as parameters.  Everything the repository itself
computes — buffer arithmetic, header bytes, tag layout, granule positions and
error propagation — is embedded below. -/

/-- UTF-8 bytes of a string, as Rust `str::bytes` yields them. -/
def strBytes (s : String) : List Nat :=
  (s.data.map String.utf8EncodeChar).flatten.map UInt8.toNat

/-- Little-endian bytes of a `u32`. -/
def le32 (n : Nat) : List Nat :=
  [n % 256, n / 256 % 256, n / 2 ^ 16 % 256, n / 2 ^ 24 % 256]

/-- Big-endian bytes of a `u32`, as the flac picture block uses. -/
def be32 (n : Nat) : List Nat :=
  [n / 2 ^ 24 % 256, n / 2 ^ 16 % 256, n / 256 % 256, n % 256]

/-- The standard tags `transcode` recognises (transcode.rs lines 1284-1290). -/
inductive TagItem
  | trackTitle (s : String)
  | album (s : String)
  | trackNumber (s : String)
  | artist (s : String)
  | other
deriving DecidableEq, Repr

/-- The comment string derived from one tag (transcode.rs lines 1284-1290). -/
def tagComment : TagItem → Option String
  | .trackTitle s => some ("TITLE=" ++ s)
  | .album s => some ("ALBUM=" ++ s)
  | .trackNumber s => some ("TRACKNUMBER=" ++ s)
  | .artist s => some ("ARTIST=" ++ s)
  | .other => none

/-- An embedded visual: whether its usage is front cover, plus the raw
attachment bytes. -/
structure Visual where
  isFrontCover : Bool
  data : List Nat
deriving DecidableEq, Repr

/-- The latest metadata revision: standard tags and visuals. -/
structure MetadataRev where
  tags : List TagItem
  visuals : List Visual
deriving DecidableEq, Repr

/-- Visual selection (transcode.rs lines 1299-1305): start from the first
visual, then take every front-cover visual in turn — the last front cover
wins, else the first visual. -/
def bestVisual (vs : List Visual) : Option Visual :=
  vs.foldl (fun acc v => if v.isFrontCover then some v else acc) vs.head?

/-- Errors of the embedded pipeline stages. -/
inductive TranscodeErr
  | unsupportedChannelCount (n : Nat)
  | imageDecodeFailed
  | imageEncodeFailed
deriving DecidableEq, Repr

/-- The picture-block construction (transcode.rs lines 1307-1343): decode the
attachment, resize, re-encode as jpeg, then build the flac `PICTURE`
structure with big-endian lengths.  Decode and encode failures are
propagated with `?` in the source, aborting the transcode. -/
def buildPicture {I : Type} (decodeImage : List Nat → Option I)
    (resize : I → I) (encodeJpeg : I → Option (List Nat))
    (data : List Nat) : Except TranscodeErr (List Nat) :=
  match decodeImage data with
  | none => .error .imageDecodeFailed
  | some img =>
    match encodeJpeg (resize img) with
    | none => .error .imageEncodeFailed
    | some imageBuf =>
      .ok (be32 3 ++ be32 (strBytes "image/jpeg").length ++ strBytes "image/jpeg" ++
        [0, 0, 0, 0] ++ be32 500 ++ be32 500 ++ [0, 0, 0, 0] ++ [0, 0, 0, 0] ++
        be32 imageBuf.length ++ imageBuf)

/-- The user-comment block (transcode.rs lines 1277-1364): one comment per
recognised tag, then at most one `METADATA_BLOCK_PICTURE` comment for the
best visual.  Comment lengths are `u32` little-endian byte counts. -/
def userComments {I : Type} (decodeImage : List Nat → Option I)
    (resize : I → I) (encodeJpeg : I → Option (List Nat))
    (base64 : List Nat → String) (meta : Option MetadataRev) :
    Except TranscodeErr (Nat × List Nat) :=
  match meta with
  | none => .ok (0, [])
  | some m =>
    let comments := m.tags.filterMap tagComment
    let len0 := comments.length
    let buf0 := (comments.map fun s => le32 (strBytes s).length ++ strBytes s).flatten
    match bestVisual m.visuals with
    | none => .ok (len0, buf0)
    | some v =>
      match buildPicture decodeImage resize encodeJpeg v.data with
      | .error e => .error e
      | .ok picture =>
        let comment := "METADATA_BLOCK_PICTURE=" ++ base64 picture
        .ok (len0 + 1, buf0 ++ le32 (strBytes comment).length ++ strBytes comment)

/-- The 19-byte `OpusHead` packet (transcode.rs lines 1258-1275): magic,
version 1, channel count, pre-skip = the encoder lookahead as two
little-endian bytes, input sample rate 48000 little-endian, zero output gain,
channel mapping family 0. -/
def opusHeadBytes (channelCount lookahead : Nat) : List Nat :=
  strBytes "OpusHead" ++ [1, channelCount % 256] ++
    [lookahead % 256, lookahead / 256 % 256] ++ [128, 187, 0, 0] ++ [0, 0] ++ [0]

/-- The pre-skip field of an `OpusHead` packet: bytes 10 and 11,
little-endian. -/
def preskipOf (head : List Nat) : Nat :=
  head.getD 10 0 + 256 * head.getD 11 0

/-- The `OpusTags` packet (transcode.rs lines 1366-1376): magic, the 8-byte
vendor string `musicopy`, then the user comment count and block. -/
def opusTagsBytes (commentCount : Nat) (commentBuf : List Nat) : List Nat :=
  strBytes "OpusTags" ++ [8, 0, 0, 0] ++ strBytes "musicopy" ++
    le32 commentCount ++ commentBuf

/-- An audio packet's observable container fields: granule position and
whether it carries `EndStream`. -/
structure PacketRec where
  granule : Nat
  endStream : Bool
deriving DecidableEq, Repr

/-- The audio encode loop (transcode.rs lines 1397-1469): full chunks of
`chunkSamples` samples, each packet's granule position the cumulative
sample-frame count; a trailing partial chunk is zero-padded and emitted with
`EndStream` and granule position `interleavedLen / channelCount`, the total
unpadded sample-frame count of the interleaved buffer. -/
def audioPackets (channelCount chunkSamples interleavedLen pos : Nat) :
    List PacketRec :=
  if _h : 0 < chunkSamples ∧ pos + chunkSamples ≤ interleavedLen then
    { granule := (pos + chunkSamples) / channelCount,
      endStream := decide (pos + chunkSamples = interleavedLen) } ::
      audioPackets channelCount chunkSamples interleavedLen (pos + chunkSamples)
  else if pos < interleavedLen then
    [{ granule := interleavedLen / channelCount, endStream := true }]
  else
    []
termination_by interleavedLen - pos
decreasing_by omega

/-- The no-resample branch (transcode.rs lines 1222-1234): when the source
rate is 48 kHz each channel is padded to `lookahead + originalFrames`
frames. -/
def padStartLen (lookahead originalFrames : Nat) : Nat :=
  lookahead + originalFrames

/-- The interleaved sample count (transcode.rs lines 1238-1252): per-channel
length times channel count. -/
def interleavedLenOf (channelCount perChannelLen : Nat) : Nat :=
  perChannelLen * channelCount

/-- The assembled observable output of `transcode` after decode: `OpusHead`
bytes, `OpusTags` bytes, and the audio packets' container fields.  The
channel-count check happens at encoder construction (transcode.rs lines
1102-1111), before the tag block is built and the audio loop runs. -/
def transcodeStream {I : Type} (decodeImage : List Nat → Option I)
    (resize : I → I) (encodeJpeg : I → Option (List Nat))
    (base64 : List Nat → String) (channelCount lookahead interleavedLen : Nat)
    (meta : Option MetadataRev) :
    Except TranscodeErr (List Nat × List Nat × List PacketRec) :=
  if channelCount = 1 ∨ channelCount = 2 then
    match userComments decodeImage resize encodeJpeg base64 meta with
    | .error e => .error e
    | .ok (len, buf) =>
      .ok (opusHeadBytes channelCount lookahead, opusTagsBytes len buf,
        audioPackets channelCount (960 * channelCount) interleavedLen 0)
  else
    .error (.unsupportedChannelCount channelCount)

/-- The final packet of the mono audio loop carries `EndStream` and granule
position equal to the full interleaved length, whether or not the input ends
on a chunk boundary. -/
theorem audioPackets_getLast_mono (len pos : Nat) (h : pos < len) :
    (audioPackets 1 960 len pos).getLast? =
      some { granule := len, endStream := true } := by
  rw [audioPackets]
  by_cases hc : pos + 960 ≤ len
  · have hguard : 0 < 960 ∧ pos + 960 ≤ len := ⟨by omega, hc⟩
    rw [dif_pos hguard]
    by_cases he : pos + 960 = len
    · have htail : audioPackets 1 960 len (pos + 960) = [] := by
        rw [audioPackets]
        have : ¬(0 < 960 ∧ pos + 960 + 960 ≤ len) := by omega
        rw [dif_neg this, if_neg (by omega)]
      rw [htail]
      simp [he, Nat.div_one]
    · have ih := audioPackets_getLast_mono len (pos + 960) (by omega)
      cases htail : audioPackets 1 960 len (pos + 960) with
      | nil => rw [htail] at ih; simp at ih
      | cons b t =>
        rw [htail] at ih
        rw [List.getLast?_cons_cons]
        exact ih
  · rw [dif_neg (by omega), if_pos h]
    simp [Nat.div_one]
termination_by len - pos
decreasing_by omega

/-- The pre-skip field of `opusHeadBytes` is the lookahead reduced mod
`2 ^ 16` (the source truncates the `usize` to its two low bytes). -/
theorem preskipOf_opusHeadBytes (channelCount lookahead : Nat) :
    preskipOf (opusHeadBytes channelCount lookahead) = lookahead % 2 ^ 16 := by
  have hmagic : strBytes "OpusHead" = [79, 112, 117, 115, 72, 101, 97, 100] := by decide
  have hbytes : opusHeadBytes channelCount lookahead =
      [79, 112, 117, 115, 72, 101, 97, 100, 1, channelCount % 256,
       lookahead % 256, lookahead / 256 % 256, 128, 187, 0, 0, 0, 0, 0] := by
    simp [opusHeadBytes, hmagic]
  rw [hbytes]
  simp [preskipOf, List.getD]
  omega

/-- C6. For a 48 kHz mono input of exactly 48000 frames and any encoder
lookahead `L < 2 ^ 16`: the `OpusHead` pre-skip field equals `L` (the number
of zero frames prepended), the final audio packet has `EndStream` and granule
position `48000 + L = 48000 + pre-skip`, and the end-trim count derived from
that granule (granule minus pre-skip) equals `48000`, the unpadded input
frame count.  The whole stream is assembled accordingly. -/
theorem mono_48k_preskip_and_final_granule (L : Nat) (hL : L < 2 ^ 16) :
    preskipOf (opusHeadBytes 1 L) = L ∧
    (audioPackets 1 (960 * 1) (interleavedLenOf 1 (padStartLen L 48000)) 0).getLast? =
      some { granule := 48000 + preskipOf (opusHeadBytes 1 L), endStream := true } ∧
    (48000 + L) - preskipOf (opusHeadBytes 1 L) = 48000 ∧
    transcodeStream (I := Unit) (fun _ => none) id (fun _ => none) (fun _ => "")
        1 L (interleavedLenOf 1 (padStartLen L 48000)) none =
      .ok (opusHeadBytes 1 L, opusTagsBytes 0 [],
        audioPackets 1 (960 * 1) (interleavedLenOf 1 (padStartLen L 48000)) 0) := by
  have hps : preskipOf (opusHeadBytes 1 L) = L := by
    rw [preskipOf_opusHeadBytes]
    exact Nat.mod_eq_of_lt hL
  have hlen : interleavedLenOf 1 (padStartLen L 48000) = L + 48000 := by
    simp [interleavedLenOf, padStartLen]
  refine ⟨hps, ?_, by omega, ?_⟩
  · rw [hps, hlen]
    have := audioPackets_getLast_mono (L + 48000) 0 (by omega)
    simpa [Nat.add_comm L 48000] using this
  · simp [transcodeStream, userComments]

/-- Witness for C6 at the concrete lookahead 312 (the usual opus lookahead
at 48 kHz). -/
theorem mono_48k_preskip_and_final_granule_witness :
    preskipOf (opusHeadBytes 1 312) = 312 ∧
    (48000 + 312) - preskipOf (opusHeadBytes 1 312) = 48000 := by
  have h := mono_48k_preskip_and_final_granule 312 (by norm_num)
  exact ⟨h.1, h.2.2.1⟩

/-- C4 counterexample: a concrete input whose embedded cover art fails to
decode makes `transcode` return the image error — it does not continue and
succeed with the picture comment omitted, contrary to the claim. -/
theorem cover_art_failure_aborts_transcode_counterexample :
    transcodeStream (I := Unit) (fun _ => none) id (fun _ => some []) (fun _ => "")
        1 0 0 (some { tags := [], visuals := [{ isFrontCover := false, data := [1] }] }) =
      .error .imageDecodeFailed := by
  rfl

/-- C4 amended. For every input whose embedded cover art fails to decode or
to re-encode, `transcode` fails: the `?` on the image decode/encode result
propagates the error and aborts the transcode, so no output with the picture
tag omitted is produced. -/
theorem cover_art_failure_aborts_transcode {I : Type}
    (decodeImage : List Nat → Option I) (resize : I → I)
    (encodeJpeg : I → Option (List Nat)) (base64 : List Nat → String)
    (channelCount lookahead interleavedLen : Nat) (m : MetadataRev) (v : Visual)
    (hch : channelCount = 1 ∨ channelCount = 2)
    (hv : bestVisual m.visuals = some v)
    (hfail : decodeImage v.data = none ∨
      ∃ img, decodeImage v.data = some img ∧ encodeJpeg (resize img) = none) :
    ∃ e, transcodeStream decodeImage resize encodeJpeg base64
        channelCount lookahead interleavedLen (some m) = .error e ∧
      (e = .imageDecodeFailed ∨ e = .imageEncodeFailed) := by
  have hpic : ∃ e, buildPicture decodeImage resize encodeJpeg v.data = .error e ∧
      (e = TranscodeErr.imageDecodeFailed ∨ e = TranscodeErr.imageEncodeFailed) := by
    rcases hfail with hdec | ⟨img, hdec, henc⟩
    · exact ⟨.imageDecodeFailed, by simp [buildPicture, hdec], Or.inl rfl⟩
    · exact ⟨.imageEncodeFailed, by simp [buildPicture, hdec, henc], Or.inr rfl⟩
  obtain ⟨e, hpe, hkind⟩ := hpic
  refine ⟨e, ?_, hkind⟩
  simp [transcodeStream, hch, userComments, hv, hpe]

/-- Witness for the amended C4 at a concrete failing-to-encode input. -/
theorem cover_art_failure_aborts_transcode_witness :
    transcodeStream (I := Unit) (fun _ => some ()) id (fun _ => none) (fun _ => "")
        2 100 1920 (some { tags := [.artist "x"], visuals := [{ isFrontCover := true, data := [5] }] }) =
      .error .imageEncodeFailed := by
  have h := cover_art_failure_aborts_transcode (I := Unit)
    (fun _ => some ()) id (fun _ => none) (fun _ => "") 2 100 1920
    { tags := [.artist "x"], visuals := [{ isFrontCover := true, data := [5] }] }
    { isFrontCover := true, data := [5] }
    (Or.inr rfl) (by rfl) (Or.inr ⟨(), rfl, rfl⟩)
  obtain ⟨e, he, hkind⟩ := h
  rcases hkind with rfl | rfl
  · have heval : transcodeStream (I := Unit) (fun _ => some ()) id (fun _ => none)
        (fun _ => "") 2 100 1920
        (some { tags := [.artist "x"], visuals := [{ isFrontCover := true, data := [5] }] }) =
        .error .imageEncodeFailed := rfl
    rw [heval] at he
    simp at he
  · exact he

/-! ## Resampling buffer arithmetic (transcode.rs lines 1120-1234)

The FFT resampler itself is external (`rubato::FftFixedIn`); its chunked
outputs are parameters.  The repository's own arithmetic — the target frame
count, the zero prepend, the flush loop's stopping condition, and the final
drain/truncate — is embedded. -/

/-- The per-channel target frame count including the lookahead zero-pad
(transcode.rs line 1138): `original_frames * 48000 / sample_rate +
lookahead_frames`, with Rust integer (floor) division. -/
def resampleNewFrames (originalFrames sampleRate lookahead : Nat) : Nat :=
  originalFrames * 48000 / sampleRate + lookahead

/-- The spec's stated target length, with ceiling division:
`ceil(N_in * 48000 / rate_in) + L`. -/
def specTargetLen (originalFrames sampleRate lookahead : Nat) : Nat :=
  (originalFrames * 48000 + (sampleRate - 1)) / sampleRate + lookahead

/-- The flush loop (transcode.rs lines 1201-1212): keep appending resampler
flush outputs while the buffer is shorter than the target.  The unbounded
`while` is modelled over the list of successive flush outputs. -/
def feedFlush {α : Type} (target : Nat) : List (List α) → List α → List α
  | [], buf => buf
  | out :: rest, buf =>
    if buf.length < target then feedFlush target rest (buf ++ out) else buf

/-- The final drain/truncate (transcode.rs lines 1214-1219): remove the first
`delay` frames, then truncate to `newFrames`. -/
def resampleFinalize {α : Type} (delay newFrames : Nat) (channel : List α) : List α :=
  (channel.drop delay).take newFrames

/-- One channel of the resampling branch (transcode.rs lines 1123-1221):
prepend `lookahead` zeros, append the chunked-processing outputs, run the
flush loop until `newFrames + delay` frames are buffered, then drain the
first `delay` frames and truncate to `newFrames`. -/
def resampleChannel {α : Type} (zero : α) (lookahead delay newFrames : Nat)
    (processedOut : List α) (flushOuts : List (List α)) : List α :=
  resampleFinalize delay newFrames
    (feedFlush (newFrames + delay) flushOuts (List.replicate lookahead zero ++ processedOut))

theorem feedFlush_length {α : Type} (target : Nat) (outs : List (List α)) (buf : List α)
    (h : target ≤ buf.length + (outs.map List.length).sum) :
    target ≤ (feedFlush target outs buf).length := by
  induction outs generalizing buf with
  | nil => simpa [feedFlush] using h
  | cons out rest ih =>
    simp only [feedFlush]
    by_cases hlt : buf.length < target
    · rw [if_pos hlt]
      apply ih
      simp at h ⊢
      omega
    · rw [if_neg hlt]
      omega

/-- C5 counterexample: at one 44100 Hz input frame with lookahead 5 and
resampler delay 3, the code's buffers end up `1 * 48000 / 44100 + 5 = 6`
frames long, not the claimed `ceil(1 * 48000 / 44100) + 5 = 7`. -/
theorem resample_truncation_ceil_counterexample :
    (resampleChannel (0 : Nat) 5 3 (resampleNewFrames 1 44100 5)
        (List.replicate 10 1) []).length = 6 ∧
    specTargetLen 1 44100 5 = 7 := by
  constructor <;> decide

/-- C5 amended. For every source with `rate_in ≠ 48000`, whenever the flush
loop can reach its stopping condition, the per-channel buffers are exactly
the first `target_len` frames after dropping the first `D = delay` frames,
and their length is `target_len = floor(N_in * 48000 / rate_in) + L` — the
source uses floor division, not the ceiling the claim states. -/
theorem resample_drops_delay_truncates_floor {α : Type} (zero : α)
    (originalFrames sampleRate lookahead delay : Nat)
    (processedOut : List α) (flushOuts : List (List α))
    (hrate : sampleRate ≠ 48000)
    (hreach : resampleNewFrames originalFrames sampleRate lookahead + delay ≤
      lookahead + processedOut.length + (flushOuts.map List.length).sum) :
    (resampleChannel zero lookahead delay (resampleNewFrames originalFrames sampleRate lookahead)
        processedOut flushOuts).length =
      originalFrames * 48000 / sampleRate + lookahead ∧
    resampleChannel zero lookahead delay (resampleNewFrames originalFrames sampleRate lookahead)
        processedOut flushOuts =
      ((feedFlush (resampleNewFrames originalFrames sampleRate lookahead + delay) flushOuts
          (List.replicate lookahead zero ++ processedOut)).drop delay).take
        (resampleNewFrames originalFrames sampleRate lookahead) := by
  have hfeed : resampleNewFrames originalFrames sampleRate lookahead + delay ≤
      (feedFlush (resampleNewFrames originalFrames sampleRate lookahead + delay) flushOuts
        (List.replicate lookahead zero ++ processedOut)).length := by
    apply feedFlush_length
    simp
    omega
  constructor
  · simp only [resampleChannel, resampleFinalize, List.length_take, List.length_drop,
      resampleNewFrames]
    simp only [resampleNewFrames] at hfeed
    omega
  · rfl

/-- Witness for the amended C5 at concrete buffers: 2 input frames at
22050 Hz, lookahead 2, delay 1. -/
theorem resample_drops_delay_truncates_floor_witness :
    (resampleChannel (0 : Nat) 2 1 (resampleNewFrames 2 22050 2)
        [7, 7, 7] [[9, 9], [9, 9], [9, 9]]).length = 2 * 48000 / 22050 + 2 := by
  exact (resample_drops_delay_truncates_floor (0 : Nat) 2 22050 2 1 [7, 7, 7]
    [[9, 9], [9, 9], [9, 9]] (by decide) (by decide)).1

end Musicopy
